import Mathlib

/-!
Verification of the quantization / bit-serial crossbar layer pipeline of
`MNSIM/Interface/layer.py`.

Modelling conventions:
* Real-valued torch tensors are modelled over `ℚ` (exact arithmetic; the
  float tensors of the source hold small integer multiples of the step
  sizes, so `ℚ` is a faithful shallow embedding).  A tensor is a `List ℚ`
  of its elements along the split dimension; partial outputs of the
  linear primitive are single rationals (one output element, elementwise).
* `torch.round` rounds half to even; `roundTE` below implements that
  tie-breaking exactly.  `torch.fmod` truncates towards zero (`fmodQ`).
* `torch.std` involves a square root, which is irrational in general, so
  the data-driven activation statistics appear in two forms: the exact
  real-valued `t_scale_real`/`train_scale` (using `Real.sqrt`), and a
  rational parameter `t_scale` threaded through the executable pipeline,
  standing for the value `(3*torch.std(x) + |torch.mean(x)|).item()`.
* Python `assert` failures are modelled by `Option`: `none` is an
  assertion error, `some` a normal return.
-/

/-- `_get_thres` of the source: `2 ** (bit_width - 1) - 1`. -/
def _get_thres (bit_width : ℕ) : ℤ :=
  2 ^ (bit_width - 1) - 1

/-- `_get_cycle` of the source: `math.ceil((bit_width - 1) / bit_split)`. -/
def _get_cycle (bit_width bit_split : ℕ) : ℕ :=
  (⌈(((bit_width : ℚ) - 1) / (bit_split : ℚ))⌉).toNat

/-- `torch.clamp(x, min=lo, max=hi)` on integers. -/
def clampZ (x lo hi : ℤ) : ℤ :=
  max lo (min x hi)

/-- Round half to even, the tie-breaking rule of `torch.round`. -/
def roundTE (x : ℚ) : ℤ :=
  if x - ⌊x⌋ = 1 / 2 then (if Even ⌊x⌋ then ⌊x⌋ else ⌊x⌋ + 1) else round x

/-- `torch.sign` on one element. -/
def signQ (x : ℚ) : ℚ :=
  if x < 0 then -1 else if x = 0 then 0 else 1

/-- Truncation towards zero (the rounding used by `torch.fmod`). -/
def truncQ (x : ℚ) : ℤ :=
  if 0 ≤ x then ⌊x⌋ else ⌈x⌉

/-- `torch.fmod x y = x - y * trunc (x / y)` on one element. -/
def fmodQ (x y : ℚ) : ℚ :=
  x - y * truncQ (x / y)

/-- `torch.max(torch.abs(inputs)).item()` (source line 49; tensors are
nonempty there, so the `0` seed never decides the result). -/
def listAbsMax (l : List ℚ) : ℚ :=
  l.foldr (fun x m => max |x| m) 0

/-- `torch.mean(inputs).item()`. -/
def listMean (l : List ℚ) : ℚ :=
  l.sum / (l.length : ℚ)

/-- The square of `torch.std(inputs)`: unbiased sample variance (torch
divides by `N - 1`). -/
def listVar (l : List ℚ) : ℚ :=
  (l.map (fun x => (x - listMean l) ^ 2)).sum / ((l.length : ℚ) - 1)

/-- One row of `bit_scale_list` (a `(bit_width, scale)` pair). -/
structure BitScale where
  bit : ℕ
  scale : ℚ
deriving Repr, DecidableEq

/-- `QuantizeFunction.RATIO = 0.707` of the source. -/
def ratio : ℚ := 0.707

/-- Lines 65-73 of `QuantizeFunction.forward`: the quantize-and-commit
step once the scale has been estimated.  Returns the quantized tensor and
the new `(bit, scale/thres)` row written into `last_bit_scale`. -/
def quantize_commit (inputs : List ℚ) (bit : ℕ) (scale : ℚ) :
    List ℚ × BitScale :=
  let thres := _get_thres bit
  let output := inputs.map (fun x => x / (scale / (thres : ℚ)))
  let output := output.map (fun x => ((clampZ (roundTE x) (-thres) thres : ℤ) : ℚ))
  let output := output.map (fun x => x / ((thres : ℚ) / scale))
  (output, ⟨bit, scale / (thres : ℚ)⟩)

/-- `QuantizeFunction.forward`.  `t_scale` stands for the data statistic
`(3*torch.std(inputs) + torch.abs(torch.mean(inputs))).item()` used only
in the activation/train branch; it is irrational in general (square
root), so it enters as a parameter here, and its defining formula is
`t_scale_real` below.  `none` models the `assert False` branches. -/
def QuantizeFunction.forward (inputs : List ℚ) (mode : String)
    (phase : Option String) (bit : ℕ) (last_bit_scale : BitScale)
    (t_scale : ℚ) : Option (List ℚ × BitScale) :=
  if mode = "weight" then
    some (quantize_commit inputs bit (listAbsMax inputs))
  else if mode = "activation" then
    let r_scale := last_bit_scale.scale * (_get_thres last_bit_scale.bit : ℚ)
    if phase = some "train" then
      some (quantize_commit inputs bit
        (if r_scale ≤ 0 then t_scale else ratio * r_scale + (1 - ratio) * t_scale))
    else if phase = some "test" then
      some (quantize_commit inputs bit r_scale)
    else none
  else none

/-- `torch.std(inputs).item()` exactly: square root of the unbiased
sample variance. -/
noncomputable def listStd (l : List ℚ) : ℝ :=
  Real.sqrt (listVar l)

/-- `t_scale = (3*torch.std(inputs) + torch.abs(torch.mean(inputs))).item()`
(source line 53), exactly. -/
noncomputable def t_scale_real (l : List ℚ) : ℝ :=
  3 * listStd l + |((listMean l : ℚ) : ℝ)|

/-- Lines 53-58 of `QuantizeFunction.forward`: the activation/train scale
estimate from the data statistics and the previously committed range
`r_scale`. -/
noncomputable def train_scale (l : List ℚ) (r_scale : ℚ) : ℝ :=
  if r_scale ≤ 0 then t_scale_real l
  else (ratio : ℝ) * (r_scale : ℚ) + (1 - (ratio : ℚ)) * t_scale_real l

/-- `split_by_num` of the source:
`[base] * (num // base) + [num % base] * (num % base > 0)`, guarded by
`assert num > 0` and `assert base > 0`. -/
def split_by_num (num base : ℕ) : Option (List ℕ) :=
  if 0 < num then
    if 0 < base then
      some (List.replicate (num / base) base ++
        List.replicate (if 0 < num % base then 1 else 0) (num % base))
    else none
  else none

------------------------------------------------------------------------
-- C5: the partition plan
------------------------------------------------------------------------

/-- C5: for `D, rows_per_partition > 0` the partition plan is
`floor(D/rpp)` full chunks of size `rpp` followed by one remainder chunk
`D mod rpp` iff the remainder is non-zero; the sizes sum to `D` with at
most one undersized chunk; the operation fails when either argument is
zero. -/
theorem split_by_num_spec (num base : ℕ) :
    (num = 0 → split_by_num num base = none) ∧
    (base = 0 → split_by_num num base = none) ∧
    (0 < num → 0 < base →
      split_by_num num base =
        some (List.replicate (num / base) base ++
          (if 0 < num % base then [num % base] else [])) ∧
      (List.replicate (num / base) base ++
        (if 0 < num % base then [num % base] else [])).sum = num ∧
      ((List.replicate (num / base) base ++
        (if 0 < num % base then [num % base] else [])).filter
          (fun x => x ≠ base)).length ≤ 1) := by
  refine ⟨?_, ?_, ?_⟩
  · intro h; simp [split_by_num, h]
  · intro h; simp [split_by_num, h]
  · intro hn hb
    refine ⟨?_, ?_, ?_⟩
    · simp only [split_by_num, if_pos hn, if_pos hb]
      congr 1
      by_cases h : 0 < num % base <;> simp [h]
    · rw [List.sum_append, List.sum_replicate, smul_eq_mul]
      by_cases h : 0 < num % base
      · simp only [if_pos h, List.sum_cons, List.sum_nil, add_zero]
        rw [mul_comm]
        exact Nat.div_add_mod num base
      · have hmod : num % base = 0 := by omega
        simp only [if_neg h, List.sum_nil, add_zero]
        calc num / base * base = base * (num / base) + num % base := by
              rw [hmod, add_zero, mul_comm]
          _ = num := Nat.div_add_mod num base
    · have hrep : (List.replicate (num / base) base).filter (fun x => x ≠ base) = [] := by
        induction num / base with
        | zero => simp
        | succ n ih => simp [List.replicate_succ, List.filter_cons, ih]
      rw [List.filter_append, hrep, List.nil_append]
      by_cases h : 0 < num % base
      · simp only [if_pos h]
        exact (List.length_filter_le _ _).trans (by simp)
      · simp [h]

/-- Witness for C5, at the concrete scenario of the spec:
`D = 20`, `rows_per_partition = 8` gives the plan `[8, 8, 4]`. -/
theorem split_by_num_spec_witness :
    (0 < 20 ∧ 0 < 8 ∧ split_by_num 20 8 = some [8, 8, 4]) ∧
    (split_by_num 20 8 =
      some (List.replicate (20 / 8) 8 ++
        (if 0 < 20 % 8 then [20 % 8] else [])) ∧
      (List.replicate (20 / 8) 8 ++
        (if 0 < 20 % 8 then [20 % 8] else [])).sum = 20 ∧
      ((List.replicate (20 / 8) 8 ++
        (if 0 < 20 % 8 then [20 % 8] else [])).filter
          (fun x => x ≠ 8)).length ≤ 1) :=
  ⟨⟨by decide, by decide, by decide⟩,
    (split_by_num_spec 20 8).2.2 (by decide) (by decide)⟩

------------------------------------------------------------------------
-- C3: the quantize operation
------------------------------------------------------------------------

/-- C3: for every input array, bit width and scale, the quantize step
returns `clamp(round(x / (scale/thres)), -thres, thres) * (scale/thres)`
elementwise, and commits `(bit_width, scale/thres)` as the new row of
`bit_scale_list`. -/
theorem quantize_commit_spec (inputs : List ℚ) (bit : ℕ) (scale : ℚ)
    (h : 1 ≤ bit) :
    quantize_commit inputs bit scale =
      (inputs.map (fun x =>
        ((clampZ (roundTE (x / (scale / (_get_thres bit : ℚ))))
            (-(_get_thres bit)) (_get_thres bit) : ℤ) : ℚ) *
          (scale / (_get_thres bit : ℚ))),
        ⟨bit, scale / (_get_thres bit : ℚ)⟩) := by
  unfold quantize_commit
  simp only [List.map_map]
  refine Prod.ext ?_ rfl
  refine List.map_congr_left (fun x _ => ?_)
  simp only [Function.comp_apply]
  rw [div_eq_mul_inv _ ((_get_thres bit : ℚ) / scale), inv_div]

/-- Witness for C3 at `inputs = [3/2]`, `bit = 8`, `scale = 1`. -/
theorem quantize_commit_spec_witness :
    1 ≤ 8 ∧
    quantize_commit [(3 : ℚ) / 2] 8 1 =
      ([((clampZ (roundTE ((3 : ℚ) / 2 / ((1 : ℚ) / (_get_thres 8 : ℚ))))
          (-(_get_thres 8)) (_get_thres 8) : ℤ) : ℚ) *
          ((1 : ℚ) / (_get_thres 8 : ℚ))],
        ⟨8, (1 : ℚ) / (_get_thres 8 : ℚ)⟩) := by
  refine ⟨by decide, ?_⟩
  have h := quantize_commit_spec [(3 : ℚ) / 2] 8 1 (by decide)
  simpa using h

------------------------------------------------------------------------
-- C6: idempotence of quantization
------------------------------------------------------------------------

/-- One element of `quantize_commit` (the three elementwise stages
fused). -/
def qElem (x scale : ℚ) (thres : ℤ) : ℚ :=
  ((clampZ (roundTE (x / (scale / (thres : ℚ)))) (-thres) thres : ℤ) : ℚ) /
    ((thres : ℚ) / scale)

theorem quantize_commit_fst (inputs : List ℚ) (bit : ℕ) (scale : ℚ) :
    (quantize_commit inputs bit scale).1 =
      inputs.map (fun x => qElem x scale (_get_thres bit)) := by
  unfold quantize_commit qElem
  simp [List.map_map, Function.comp]

theorem roundTE_intCast (n : ℤ) : roundTE (n : ℚ) = n := by
  unfold roundTE
  rw [Int.floor_intCast]
  have : ((n : ℚ) - n) = 0 := by ring
  rw [this, if_neg (by norm_num)]
  exact round_intCast n

theorem clampZ_le_right {x lo hi : ℤ} (h : lo ≤ hi) : clampZ x lo hi ≤ hi :=
  max_le h (min_le_right _ _)

theorem le_clampZ_left (x lo hi : ℤ) : lo ≤ clampZ x lo hi :=
  le_max_left _ _

theorem thres_nonneg (bit : ℕ) : 0 ≤ _get_thres bit := by
  unfold _get_thres
  have : (0 : ℤ) < 2 ^ (bit - 1) := pow_pos (by norm_num) _
  omega

theorem qElem_idem (x scale : ℚ) (thres : ℤ) (ht : 0 ≤ thres) :
    qElem (qElem x scale thres) scale thres = qElem x scale thres := by
  by_cases hs : scale = 0
  · subst hs
    simp [qElem]
  · by_cases htz : thres = 0
    · subst htz
      simp [qElem]
    · have htq : ((thres : ℚ)) ≠ 0 := Int.cast_ne_zero.mpr htz
      have hst : scale / (thres : ℚ) ≠ 0 := div_ne_zero hs htq
      set c := clampZ (roundTE (x / (scale / (thres : ℚ)))) (-thres) thres with hc
      have hcb1 : -thres ≤ c := le_clampZ_left _ _ _
      have hcb2 : c ≤ thres := clampZ_le_right (by omega)
      have hy : qElem x scale thres = (c : ℚ) / ((thres : ℚ) / scale) := rfl
      have hdiv : (c : ℚ) / ((thres : ℚ) / scale) / (scale / (thres : ℚ)) = (c : ℚ) := by
        rw [div_div_eq_mul_div, mul_div_assoc]
        exact div_mul_cancel₀ _ (div_ne_zero htq hs)
      have hclamp : clampZ c (-thres) thres = c := by
        unfold clampZ
        omega
      rw [hy]
      unfold qElem
      rw [hdiv, roundTE_intCast, hclamp]

/-- C6: quantizing an already-quantized array a second time at the same
bit-width and the same scale is the identity on both the array and the
committed `(bit, step)` row. -/
theorem quantize_idempotent (inputs : List ℚ) (bit : ℕ) (scale : ℚ) :
    quantize_commit ((quantize_commit inputs bit scale).1) bit scale =
      quantize_commit inputs bit scale := by
  have h2 : (quantize_commit ((quantize_commit inputs bit scale).1) bit scale).2 =
      (quantize_commit inputs bit scale).2 := rfl
  refine Prod.ext ?_ h2
  rw [quantize_commit_fst, quantize_commit_fst]
  rw [List.map_map]
  refine List.map_congr_left (fun x _ => ?_)
  simp only [Function.comp_apply]
  exact qElem_idem x scale (_get_thres bit) (thres_nonneg bit)

------------------------------------------------------------------------
-- C4: activation/train scale smoothing
------------------------------------------------------------------------

/-- Counterexample to C4 as stated: at the constant array `[1, 1]` the
data-driven estimate is `t_scale = 3*0 + |1| = 1`; with committed range
`r_scale = 1 > 0` the smoothed scale is `0.707*1 + 0.293*1 = 1`, which
does not lie strictly between `t_scale = 1` and `r_scale = 1`. -/
theorem train_scale_strict_cex :
    ¬ ((1 : ℚ) ≤ 0) ∧
    t_scale_real [1, 1] = 1 ∧
    train_scale [1, 1] 1 = 1 ∧
    ¬ (min (t_scale_real [1, 1]) ((1 : ℚ) : ℝ) < train_scale [1, 1] 1 ∧
        train_scale [1, 1] 1 < max (t_scale_real [1, 1]) ((1 : ℚ) : ℝ)) := by
  have hm : listMean [1, 1] = 1 := by
    norm_num [listMean]
  have hv : listVar [1, 1] = 0 := by
    simp [listVar, hm]
  have hstd : listStd [1, 1] = 0 := by
    rw [listStd, hv]
    norm_num [Real.sqrt_zero]
  have ht : t_scale_real [1, 1] = 1 := by
    rw [t_scale_real, hstd, hm]
    norm_num
  have htr : train_scale [1, 1] 1 = 1 := by
    rw [train_scale, if_neg (by norm_num), ht]
    norm_num [ratio]
  refine ⟨by norm_num, ht, htr, ?_⟩
  rw [ht, htr]
  norm_num

/-- C4 (amended): in activation/train mode, if the previously committed
range `r_scale` is non-positive the estimated scale equals
`t_scale = 3*stddev + |mean|` exactly; otherwise it equals
`0.707*r_scale + 0.293*t_scale`, lies (weakly) between `t_scale` and
`r_scale`, and strictly between them whenever `t_scale ≠ r_scale`. -/
theorem train_scale_spec (l : List ℚ) (r_scale : ℚ) :
    (r_scale ≤ 0 → train_scale l r_scale = t_scale_real l) ∧
    (¬ r_scale ≤ 0 →
      train_scale l r_scale =
        ((0.707 : ℚ) : ℝ) * (r_scale : ℝ) + ((0.293 : ℚ) : ℝ) * t_scale_real l ∧
      min (t_scale_real l) (r_scale : ℝ) ≤ train_scale l r_scale ∧
      train_scale l r_scale ≤ max (t_scale_real l) (r_scale : ℝ) ∧
      (t_scale_real l ≠ (r_scale : ℝ) →
        min (t_scale_real l) (r_scale : ℝ) < train_scale l r_scale ∧
        train_scale l r_scale < max (t_scale_real l) (r_scale : ℝ))) := by
  constructor
  · intro h
    rw [train_scale, if_pos h]
  · intro h
    have hrpos : (0 : ℝ) < (r_scale : ℝ) := by
      exact_mod_cast lt_of_not_le h
    have heq : train_scale l r_scale =
        ((0.707 : ℚ) : ℝ) * (r_scale : ℝ) + ((0.293 : ℚ) : ℝ) * t_scale_real l := by
      rw [train_scale, if_neg h]
      norm_num [ratio]
    refine ⟨heq, ?_⟩
    rw [heq]
    set t := t_scale_real l with htdef
    have h707 : ((0.707 : ℚ) : ℝ) = 0.707 := by norm_num
    have h293 : ((0.293 : ℚ) : ℝ) = 0.293 := by norm_num
    rw [h707, h293]
    rcases le_total t (r_scale : ℝ) with hle | hle
    · rw [min_eq_left hle, max_eq_right hle]
      refine ⟨by nlinarith, by nlinarith, fun hne => ?_⟩
      have hlt : t < (r_scale : ℝ) := lt_of_le_of_ne hle hne
      exact ⟨by nlinarith, by nlinarith⟩
    · rw [min_eq_right hle, max_eq_left hle]
      refine ⟨by nlinarith, by nlinarith, fun hne => ?_⟩
      have hlt : (r_scale : ℝ) < t := lt_of_le_of_ne hle (Ne.symm hne)
      exact ⟨by nlinarith, by nlinarith⟩

/-- Witness for C4 (amended) at `l = [2, 2]` (so `t_scale = 2`) and
`r_scale = 1`. -/
theorem train_scale_spec_witness :
    ¬ ((1 : ℚ) ≤ 0) ∧
    (train_scale [2, 2] 1 =
        ((0.707 : ℚ) : ℝ) * ((1 : ℚ) : ℝ) + ((0.293 : ℚ) : ℝ) * t_scale_real [2, 2] ∧
      min (t_scale_real [2, 2]) ((1 : ℚ) : ℝ) ≤ train_scale [2, 2] 1 ∧
      train_scale [2, 2] 1 ≤ max (t_scale_real [2, 2]) ((1 : ℚ) : ℝ) ∧
      (t_scale_real [2, 2] ≠ ((1 : ℚ) : ℝ) →
        min (t_scale_real [2, 2]) ((1 : ℚ) : ℝ) < train_scale [2, 2] 1 ∧
        train_scale [2, 2] 1 < max (t_scale_real [2, 2]) ((1 : ℚ) : ℝ))) :=
  ⟨by decide, (train_scale_spec [2, 2] 1).2 (by decide)⟩

------------------------------------------------------------------------
-- C1: bit splitting (split_by_bit)
------------------------------------------------------------------------

/-- `split_by_bit` of the source: quantize `tensor / scale` to clamped
integer levels, then emit `weight_cycle` digit slices via cumulative
residues `t_weight = [0, fmod(|q|, 2^(bs*1)), ..., |q|]`, each slice
`sign * (t_weight[i+1] - t_weight[i]) / 2^(bs*i)`.  The scalar `0` head
of `t_weight` is broadcast to the tensor shape (as torch does in the
subtraction). -/
def split_by_bit (tensor : List ℚ) (scale : ℚ) (bit_width bit_split : ℕ) :
    List (List ℚ) :=
  let weight_cycle := _get_cycle bit_width bit_split
  let thres := _get_thres bit_width
  let quantize_tensor := tensor.map
    (fun x => ((clampZ (roundTE (x / scale)) (-thres) thres : ℤ) : ℚ))
  let sign_tensor := quantize_tensor.map signQ
  let abs_tensor := quantize_tensor.map (fun x => |x|)
  let t_weight := (tensor.map (fun _ => (0 : ℚ))) ::
    (((List.range (weight_cycle - 1)).map
        (fun i => abs_tensor.map (fun m => fmodQ m (2 ^ (bit_split * (i + 1))))))
      ++ [abs_tensor])
  (List.range weight_cycle).map (fun i =>
    List.zipWith (fun s d => s * d) sign_tensor
      (List.zipWith (fun a b => (a - b) / 2 ^ (bit_split * i))
        (t_weight.getD (i + 1) []) (t_weight.getD i [])))

theorem fmodQ_natCast (a n : ℕ) (hn : 0 < n) :
    fmodQ (a : ℚ) (n : ℚ) = ((a % n : ℕ) : ℚ) := by
  have hnq : (0 : ℚ) < (n : ℚ) := by exact_mod_cast hn
  have hdiv_nonneg : (0 : ℚ) ≤ (a : ℚ) / (n : ℚ) :=
    div_nonneg (by positivity) hnq.le
  have hfloor : ⌊(a : ℚ) / (n : ℚ)⌋ = ((a / n : ℕ) : ℤ) := by
    rw [Int.floor_eq_iff]
    constructor
    · push_cast
      rw [le_div_iff hnq]
      exact_mod_cast Nat.div_mul_le_self a n
    · push_cast
      rw [div_lt_iff hnq]
      exact_mod_cast (Nat.div_lt_iff_lt_mul hn).mp (Nat.lt_succ_self _)
  unfold fmodQ truncQ
  rw [if_pos hdiv_nonneg, hfloor, Int.cast_natCast]
  have hmod := Nat.div_add_mod a n
  have hmodq : (n : ℚ) * ((a / n : ℕ) : ℚ) + ((a % n : ℕ) : ℚ) = (a : ℚ) := by
    exact_mod_cast hmod
  linarith

theorem signQ_mul_abs (x : ℚ) : signQ x * |x| = x := by
  unfold signQ
  rcases lt_trichotomy x 0 with h | h | h
  · rw [if_pos h, abs_of_neg h]; ring
  · simp [h]
  · rw [if_neg (not_lt.mpr h.le), if_neg h.ne', abs_of_pos h]; ring

theorem signQ_mul_natAbs (q : ℤ) :
    signQ (q : ℚ) * ((q.natAbs : ℕ) : ℚ) = (q : ℚ) := by
  rw [Int.cast_natAbs, Int.cast_abs, signQ_mul_abs]

theorem bit_split_mul_cycle (bw bs : ℕ) (hbw : 1 ≤ bw) (hbs : 1 ≤ bs) :
    bw - 1 ≤ bs * _get_cycle bw bs := by
  unfold _get_cycle
  have hbsq : (0 : ℚ) < (bs : ℚ) := by exact_mod_cast hbs
  have hnum : (0 : ℚ) ≤ ((bw : ℚ) - 1) := by
    have : (1 : ℚ) ≤ (bw : ℚ) := by exact_mod_cast hbw
    linarith
  set e := ⌈((bw : ℚ) - 1) / (bs : ℚ)⌉ with he
  have he0 : 0 ≤ e := Int.ceil_nonneg (div_nonneg hnum hbsq.le)
  have h1 : ((bw : ℚ) - 1) / (bs : ℚ) ≤ (e : ℚ) := Int.le_ceil _
  have h2 : (bw : ℚ) - 1 ≤ (e : ℚ) * (bs : ℚ) := (div_le_iff hbsq).mp h1
  have hcq : ((e.toNat : ℕ) : ℚ) = (e : ℚ) := by
    exact_mod_cast Int.toNat_of_nonneg he0
  rw [← Nat.cast_le (α := ℚ), Nat.cast_sub hbw, Nat.cast_mul, hcq]
  push_cast
  linarith

theorem digits_sum (M bs c : ℕ) (hM : M < 2 ^ (bs * c)) :
    (∑ i in Finset.range c,
      ((M / 2 ^ (bs * i) % 2 ^ bs : ℕ) : ℚ) * 2 ^ (bs * i)) = (M : ℚ) := by
  have hstep : ∀ i, ((M / 2 ^ (bs * i) % 2 ^ bs : ℕ) : ℚ) * 2 ^ (bs * i)
      = ((M % 2 ^ (bs * (i + 1)) : ℕ) : ℚ) - ((M % 2 ^ (bs * i) : ℕ) : ℚ) := by
    intro i
    have hpow : (2 : ℕ) ^ (bs * (i + 1)) = 2 ^ (bs * i) * 2 ^ bs := by
      rw [← pow_add, Nat.mul_succ]
    have h : M % (2 ^ (bs * i) * 2 ^ bs)
        = M % 2 ^ (bs * i) + 2 ^ (bs * i) * (M / 2 ^ (bs * i) % 2 ^ bs) :=
      Nat.mod_mul
    rw [hpow, h]
    push_cast
    ring
  rw [Finset.sum_congr rfl (fun i _ => hstep i),
    Finset.sum_range_sub (fun j => ((M % 2 ^ (bs * j) : ℕ) : ℚ))]
  rw [Nat.mod_eq_of_lt hM]
  simp [Nat.mod_one]

theorem getD_map_range {α : Type} (n i : ℕ) (f : ℕ → List α) (hi : i < n) :
    ((List.range n).map f).getD i [] = f i := by
  rw [List.getD_eq_getElem _ _ (by simpa using hi), List.getElem_map,
    List.getElem_range]

theorem getD_map (f : ℚ → ℚ) (l : List ℚ) (k : ℕ) (h : k < l.length) :
    (l.map f).getD k 0 = f (l.getD k 0) := by
  rw [List.getD_eq_getElem _ _ (by simpa using h), List.getElem_map,
    List.getD_eq_getElem _ _ h]

theorem getD_zipWith (f : ℚ → ℚ → ℚ) (l1 l2 : List ℚ) (k : ℕ)
    (h1 : k < l1.length) (h2 : k < l2.length) :
    (List.zipWith f l1 l2).getD k 0 = f (l1.getD k 0) (l2.getD k 0) := by
  rw [List.getD_eq_getElem _ _ (by rw [List.length_zipWith]; omega),
    List.getElem_zipWith, List.getD_eq_getElem _ _ h1,
    List.getD_eq_getElem _ _ h2]

/-- Indexing the `t_weight` list `[0] + [...residues...] + [abs]` of
`split_by_bit`. -/
theorem t_weight_getD {α : Type} (z last : List α) (g : ℕ → List α)
    (c j : ℕ) (hj : j ≤ c) :
    ((z :: (((List.range (c - 1)).map g) ++ [last])).getD j []) =
      if j = 0 then z else if j < c then g (j - 1) else last := by
  match j with
  | 0 => simp
  | j + 1 =>
    rw [List.getD_cons_succ]
    by_cases h : j < c - 1
    · rw [List.getD_append _ _ _ _ (by simpa using h), getD_map_range _ j _ h,
        if_neg (by omega), if_pos (by omega)]
      simp
    · have hj' : j = c - 1 := by omega
      have hc1 : 1 ≤ c := by omega
      subst hj'
      rw [if_neg (by omega), if_neg (by omega),
        List.getD_eq_getElem _ _ (by simp),
        List.getElem_append_right (by simp)]
      simp

theorem digit_sub (M bs i : ℕ) :
    (((M % 2 ^ (bs * (i + 1)) : ℕ) : ℚ) - ((M % 2 ^ (bs * i) : ℕ) : ℚ)) /
        2 ^ (bs * i)
      = ((M / 2 ^ (bs * i) % 2 ^ bs : ℕ) : ℚ) := by
  have hpow : (2 : ℕ) ^ (bs * (i + 1)) = 2 ^ (bs * i) * 2 ^ bs := by
    rw [← pow_add, Nat.mul_succ]
  have h : M % (2 ^ (bs * i) * 2 ^ bs)
      = M % 2 ^ (bs * i) + 2 ^ (bs * i) * (M / 2 ^ (bs * i) % 2 ^ bs) :=
    Nat.mod_mul
  have hnum : ((M % 2 ^ (bs * (i + 1)) : ℕ) : ℚ) - ((M % 2 ^ (bs * i) : ℕ) : ℚ)
      = 2 ^ (bs * i) * ((M / 2 ^ (bs * i) % 2 ^ bs : ℕ) : ℚ) := by
    rw [hpow, h]
    push_cast
    ring
  rw [hnum, mul_comm, mul_div_assoc, div_self (pow_ne_zero _ two_ne_zero),
    mul_one]

theorem clamp_natAbs_lt (r : ℤ) (bw bs : ℕ) (hbw : 1 ≤ bw) (hbs : 1 ≤ bs) :
    (clampZ r (-(_get_thres bw)) (_get_thres bw)).natAbs
      < 2 ^ (bs * _get_cycle bw bs) := by
  have hthn : 0 ≤ _get_thres bw := thres_nonneg bw
  have habsq : |clampZ r (-(_get_thres bw)) (_get_thres bw)| ≤ _get_thres bw :=
    abs_le.mpr ⟨le_clampZ_left _ _ _, clampZ_le_right (by omega)⟩
  have hcyc := bit_split_mul_cycle bw bs hbw hbs
  have h1 : ((clampZ r (-(_get_thres bw)) (_get_thres bw)).natAbs : ℤ)
      ≤ _get_thres bw := by
    rw [← Int.abs_eq_natAbs]
    exact habsq
  have h2 : _get_thres bw < 2 ^ (bw - 1) := by
    unfold _get_thres
    omega
  have h3 : (2 : ℤ) ^ (bw - 1) ≤ 2 ^ (bs * _get_cycle bw bs) :=
    pow_le_pow_right₀ (by norm_num) hcyc
  have h4 : ((clampZ r (-(_get_thres bw)) (_get_thres bw)).natAbs : ℤ)
      < ((2 ^ (bs * _get_cycle bw bs) : ℕ) : ℤ) := by
    push_cast
    omega
  exact_mod_cast h4

theorem split_by_bit_length (tensor : List ℚ) (scale : ℚ) (bw bs : ℕ) :
    (split_by_bit tensor scale bw bs).length = _get_cycle bw bs := by
  simp [split_by_bit]

theorem split_by_bit_slice_length (tensor : List ℚ) (scale : ℚ) (bw bs : ℕ)
    (i : ℕ) (hi : i < _get_cycle bw bs) :
    ((split_by_bit tensor scale bw bs).getD i []).length = tensor.length := by
  simp only [split_by_bit]
  rw [getD_map_range _ i _ hi]
  rw [t_weight_getD _ _ _ (_get_cycle bw bs) (i + 1) (by omega),
    t_weight_getD _ _ _ (_get_cycle bw bs) i (by omega)]
  rw [List.length_zipWith, List.length_zipWith]
  split_ifs <;> simp

theorem split_by_bit_getD (tensor : List ℚ) (scale : ℚ) (bw bs : ℕ)
    (hbw : 1 ≤ bw) (hbs : 1 ≤ bs) (i k : ℕ)
    (hi : i < _get_cycle bw bs) (hk : k < tensor.length) :
    ((split_by_bit tensor scale bw bs).getD i []).getD k 0 =
      signQ ((clampZ (roundTE (tensor.getD k 0 / scale))
          (-(_get_thres bw)) (_get_thres bw) : ℤ) : ℚ) *
        (((clampZ (roundTE (tensor.getD k 0 / scale))
            (-(_get_thres bw)) (_get_thres bw)).natAbs
          / 2 ^ (bs * i) % 2 ^ bs : ℕ) : ℚ) := by
  have hMlt := clamp_natAbs_lt (roundTE (tensor.getD k 0 / scale)) bw bs hbw hbs
  simp only [split_by_bit]
  rw [getD_map_range _ i _ hi]
  set qt := tensor.map
    (fun x => ((clampZ (roundTE (x / scale)) (-(_get_thres bw)) (_get_thres bw) : ℤ) : ℚ)) with hqt
  set st := qt.map signQ with hst
  set abs_t := qt.map (fun x => |x|) with habst
  set zeros := tensor.map (fun _ => (0 : ℚ)) with hzeros
  set g := fun j => abs_t.map (fun m => fmodQ m (2 ^ (bs * (j + 1)))) with hg
  have hlq : qt.length = tensor.length := by rw [hqt]; simp
  have hlst : st.length = tensor.length := by rw [hst, List.length_map, hlq]
  have habsl : abs_t.length = tensor.length := by rw [habst, List.length_map, hlq]
  have hzl : zeros.length = tensor.length := by rw [hzeros]; simp
  have hqelem : qt.getD k 0 =
      ((clampZ (roundTE (tensor.getD k 0 / scale))
        (-(_get_thres bw)) (_get_thres bw) : ℤ) : ℚ) := by
    rw [hqt, getD_map _ _ _ hk]
  have habselem : abs_t.getD k 0 =
      (((clampZ (roundTE (tensor.getD k 0 / scale))
        (-(_get_thres bw)) (_get_thres bw)).natAbs : ℕ) : ℚ) := by
    rw [habst, getD_map _ _ _ (by rw [hlq]; exact hk), hqelem, Int.cast_natAbs,
      Int.cast_abs]
  have htwget : ∀ j, j ≤ _get_cycle bw bs →
      ((zeros :: ((List.range (_get_cycle bw bs - 1)).map g ++ [abs_t])).getD j []).getD k 0 =
        (((clampZ (roundTE (tensor.getD k 0 / scale))
            (-(_get_thres bw)) (_get_thres bw)).natAbs % 2 ^ (bs * j) : ℕ) : ℚ) := by
    intro j hj
    rw [t_weight_getD _ _ _ (_get_cycle bw bs) j hj]
    by_cases h0 : j = 0
    · subst h0
      rw [if_pos rfl, hzeros, getD_map _ _ _ hk]
      simp [Nat.mod_one]
    · by_cases h1 : j < _get_cycle bw bs
      · rw [if_neg h0, if_pos h1, hg]
        simp only []
        rw [getD_map _ _ _ (by rw [habsl]; exact hk), habselem]
        have hj1 : j - 1 + 1 = j := by omega
        rw [hj1]
        have hcast : ((2 ^ (bs * j) : ℕ) : ℚ) = (2 : ℚ) ^ (bs * j) := by
          push_cast
          ring
        rw [← hcast, fmodQ_natCast _ _ (Nat.pos_pow_of_pos _ (by norm_num))]
      · rw [if_neg h0, if_neg h1, habselem]
        have hj' : j = _get_cycle bw bs := by omega
        subst hj'
        rw [Nat.mod_eq_of_lt hMlt]
  have htwlen : ∀ j, j ≤ _get_cycle bw bs →
      ((zeros :: ((List.range (_get_cycle bw bs - 1)).map g ++ [abs_t])).getD j []).length =
        tensor.length := by
    intro j hj
    rw [t_weight_getD _ _ _ (_get_cycle bw bs) j hj]
    by_cases h0 : j = 0
    · simp [h0, hzl]
    · by_cases h1 : j < _get_cycle bw bs
      · rw [if_neg h0, if_pos h1, hg]
        simp [habsl]
      · rw [if_neg h0, if_neg h1]
        exact habsl
  have hk1 : k < st.length := by rw [hlst]; exact hk
  have hkzip : k < (List.zipWith (fun a b => (a - b) / 2 ^ (bs * i))
      (((zeros :: ((List.range (_get_cycle bw bs - 1)).map g ++ [abs_t])).getD (i + 1) []))
      (((zeros :: ((List.range (_get_cycle bw bs - 1)).map g ++ [abs_t])).getD i []))).length := by
    rw [List.length_zipWith, htwlen (i + 1) (by omega), htwlen i (by omega)]
    simp [hk]
  rw [getD_zipWith _ _ _ k hk1 hkzip]
  rw [getD_zipWith _ _ _ k (by rw [htwlen (i + 1) (by omega)]; exact hk)
    (by rw [htwlen i (by omega)]; exact hk)]
  rw [htwget (i + 1) (by omega), htwget i (by omega), digit_sub]
  rw [hst, getD_map _ _ _ (by rw [hlq]; exact hk), hqelem]

/-- The full C1 property of `split_by_bit`: with
`q = clamp(round(tensor/scale), -thres, thres)` elementwise, the result
has exactly `ceil((bit_width-1)/cell_bit)` slices of the tensor's shape,
every slice element is `sign(q)` times an unsigned digit `< 2^cell_bit`,
and the positional sum `Σ slice_i * 2^(cell_bit*i)` recovers `q`
exactly. -/
def SplitByBitGood (tensor : List ℚ) (scale : ℚ) (bit_width bit_split : ℕ) : Prop :=
  (split_by_bit tensor scale bit_width bit_split).length =
    _get_cycle bit_width bit_split ∧
  (∀ i < _get_cycle bit_width bit_split,
    ((split_by_bit tensor scale bit_width bit_split).getD i []).length =
      tensor.length) ∧
  (∀ k < tensor.length,
    (∀ i < _get_cycle bit_width bit_split,
      ∃ d : ℕ, d < 2 ^ bit_split ∧
        ((split_by_bit tensor scale bit_width bit_split).getD i []).getD k 0 =
          signQ ((clampZ (roundTE (tensor.getD k 0 / scale))
            (-(_get_thres bit_width)) (_get_thres bit_width) : ℤ) : ℚ) * (d : ℚ)) ∧
    (∑ i in Finset.range (_get_cycle bit_width bit_split),
        ((split_by_bit tensor scale bit_width bit_split).getD i []).getD k 0 *
          2 ^ (bit_split * i)) =
      ((clampZ (roundTE (tensor.getD k 0 / scale))
        (-(_get_thres bit_width)) (_get_thres bit_width) : ℤ) : ℚ))

/-- C1: the bit decomposition is an exact signed radix-`2^cell_bit` digit
decomposition of the clamped integer level. -/
theorem split_by_bit_spec (tensor : List ℚ) (scale : ℚ) (bw bs : ℕ)
    (hbw : 1 ≤ bw) (hbs : 1 ≤ bs) :
    SplitByBitGood tensor scale bw bs := by
  unfold SplitByBitGood
  refine ⟨split_by_bit_length tensor scale bw bs, ?_, ?_⟩
  · intro i hi
    exact split_by_bit_slice_length tensor scale bw bs i hi
  · intro k hk
    constructor
    · intro i hi
      exact ⟨(clampZ (roundTE (tensor.getD k 0 / scale))
          (-(_get_thres bw)) (_get_thres bw)).natAbs / 2 ^ (bs * i) % 2 ^ bs,
        Nat.mod_lt _ (Nat.pos_pow_of_pos _ (by norm_num)),
        split_by_bit_getD tensor scale bw bs hbw hbs i k hi hk⟩
    · rw [Finset.sum_congr rfl (fun i hi => by
        rw [split_by_bit_getD tensor scale bw bs hbw hbs i k
          (Finset.mem_range.mp hi) hk, mul_assoc])]
      rw [← Finset.mul_sum]
      rw [digits_sum _ _ _ (clamp_natAbs_lt (roundTE (tensor.getD k 0 / scale)) bw bs hbw hbs)]
      exact signQ_mul_natAbs _

/-- Witness for C1 at `tensor = [100, -37]`, `scale = 1`,
`bit_width = 8`, `cell_bit = 2` (the concrete scenario of the spec:
`q = 100` splits into four digits in `[0, 3]`). -/
theorem split_by_bit_spec_witness :
    1 ≤ 8 ∧ 1 ≤ 2 ∧ SplitByBitGood [(100 : ℚ), -37] 1 8 2 :=
  ⟨by decide, by decide, split_by_bit_spec [(100 : ℚ), -37] 1 8 2 (by decide) (by decide)⟩

------------------------------------------------------------------------
-- The layer orchestrator (BaseWeightLayer)
------------------------------------------------------------------------

/-- The linear primitive `partial_func` of the source (`F.conv2d` or
`F.linear` with the layer's fixed parameters), abstract here: it takes an
input tensor and a weight tensor and yields one output element. -/
def PrimFun : Type := List ℚ → List ℚ → ℚ

/-- The parts of `layer_ini` the forward passes read. -/
structure LayerIni where
  quantize_input : ℕ
  quantize_weight : ℕ
  quantize_output : ℕ
  cell_bit : ℕ
  dac_bit : ℕ
  adc_bit : ℕ
  point_shift : ℤ
deriving Repr, DecidableEq

/-- The mutable state of a `BaseWeightLayer`: its configuration, the
`nn.Module.training` flag, `input_split_num`, the sub-layer weight
slices (`l.weight` for `l` in `layer_list`), and the three rows of the
`bit_scale_list` buffer (index 0 = input, 1 = weight, 2 = output). -/
structure LayerState where
  layer_ini : LayerIni
  training : Bool
  input_split_num : ℕ
  weights : List (List ℚ)
  bit_scale_input : BitScale
  bit_scale_weight : BitScale
  bit_scale_output : BitScale
deriving Repr, DecidableEq

/-- Construction: `get_buffer_list` registers
`[[input_bit, -1], [weight_bit, -1], [output_bit, -1]]`. -/
def mkLayer (ini : LayerIni) (training : Bool) (input_split_num : ℕ)
    (weights : List (List ℚ)) : LayerState :=
  { layer_ini := ini
    training := training
    input_split_num := input_split_num
    weights := weights
    bit_scale_input := ⟨ini.quantize_input, -1⟩
    bit_scale_weight := ⟨ini.quantize_weight, -1⟩
    bit_scale_output := ⟨ini.quantize_output, -1⟩ }

/-- `torch.split(l, n, dim=1)`: chunks of size `n`, last chunk possibly
smaller. -/
def splitList (n : ℕ) (l : List ℚ) : List (List ℚ) :=
  if h : l = [] then []
  else if h2 : n = 0 then []
  else l.take n :: splitList n (l.drop n)
termination_by l.length
decreasing_by
  have hpos : 0 < l.length := List.length_pos.mpr h
  simp only [List.length_drop]
  omega

/-- `get_quantize_weight_bit_list`: bit-split every sub-layer's weight
slice at the committed weight scale/bit-width and `cell_bit`. -/
def get_quantize_weight_bit_list (st : LayerState) : List (List (List ℚ)) :=
  st.weights.map (fun w =>
    split_by_bit w st.bit_scale_weight.scale st.bit_scale_weight.bit
      st.layer_ini.cell_bit)

/-- `set_weights_forward` of the source: the bit-serial hardware-accurate
forward pass.  Tensors whose elementwise treatment is uniform are single
rationals here (one output element); `p_func` is the linear primitive. -/
def set_weights_forward (st : LayerState) (p_func : PrimFun) (inputs : List ℚ)
    (quantize_weight_bit_list : List (List (List ℚ))) : Option ℚ :=
  if st.training then none
  else
    let input_list := splitList st.input_split_num inputs
    let weight_cycle := _get_cycle st.bit_scale_weight.bit st.layer_ini.cell_bit
    let input_cycle := _get_cycle st.bit_scale_input.bit st.layer_ini.dac_bit
    let output_scale := st.bit_scale_output.scale *
      (_get_thres st.bit_scale_output.bit : ℚ)
    let mul_scale := st.bit_scale_weight.scale * st.bit_scale_input.scale *
      2 ^ ((weight_cycle - 1) * st.layer_ini.cell_bit) *
      2 ^ ((input_cycle - 1) * st.layer_ini.dac_bit)
    let transfer_scale := (2 : ℚ) ^ (st.layer_ini.point_shift + st.layer_ini.adc_bit - 1)
    let output_thres := _get_thres st.layer_ini.adc_bit
    let output_list := (quantize_weight_bit_list.zip input_list).bind
      (fun mw_inp =>
        let input_activation_bit_list := split_by_bit mw_inp.2
          st.bit_scale_input.scale st.bit_scale_input.bit st.layer_ini.dac_bit
        (List.range input_cycle).bind (fun i =>
          (List.range weight_cycle).map (fun j =>
            let tmp := p_func (input_activation_bit_list.getD i [])
              (mw_inp.1.getD j [])
            let tmp := tmp * (mul_scale / output_scale * transfer_scale)
            let tmp := ((clampZ (roundTE tmp) (-output_thres) output_thres : ℤ) : ℚ)
            let scale_point := (input_cycle - 1 - i) * st.layer_ini.dac_bit +
              (weight_cycle - 1 - j) * st.layer_ini.cell_bit
            tmp / (transfer_scale * 2 ^ scale_point))))
    let output := output_list.sum
    let output_thres_f := _get_thres st.bit_scale_output.bit
    let output_q := ((clampZ (roundTE (output * (output_thres_f : ℚ)))
      (-output_thres_f) output_thres_f : ℤ) : ℚ)
    some (output_q / ((output_thres_f : ℚ) / output_scale))

/-- `BaseWeightLayer.forward`: dispatch on the `method` string.  `none`
models the `assert` failures. -/
def BaseWeightLayer.forward (st : LayerState) (p_func : PrimFun)
    (inputs : List ℚ) (method : String) (input_config : Option BitScale)
    (t_scale : ℚ) : Option (ℚ × LayerState) :=
  if method = "TRADITION" then
    let input_list := splitList st.input_split_num inputs
    let output_list := List.zipWith (fun l v => p_func v l) st.weights input_list
    some (output_list.sum, st)
  else if method = "FIX_TRAIN" then
    let weight_total := st.weights.join
    match QuantizeFunction.forward weight_total "weight" none
      st.bit_scale_weight.bit st.bit_scale_weight t_scale with
    | none => none
    | some qw =>
      let output := p_func inputs qw.1
      match QuantizeFunction.forward [output] "activation"
        (some (if st.training then "train" else "test"))
        st.bit_scale_output.bit st.bit_scale_output t_scale with
      | none => none
      | some qo =>
        some (qo.1.getD 0 0,
          { st with bit_scale_weight := qw.2, bit_scale_output := qo.2 })
  else if method = "SINGLE_FIX_TEST" then
    if st.training then none
    else
      match input_config with
      | none => none
      | some cfg =>
        let st2 := { st with bit_scale_input := cfg }
        let qwbl := get_quantize_weight_bit_list st2
        match set_weights_forward st2 p_func inputs qwbl with
        | none => none
        | some out => some (out, st2)
  else none

------------------------------------------------------------------------
-- C10: full-precision mode is a pure computation on the state
------------------------------------------------------------------------

/-- C10: a `TRADITION` (full-precision) forward call splits the input,
applies the unmodified sub-operations, sums their outputs, and returns
the state completely unchanged (in particular all three rows of
`bit_scale_list` are untouched). -/
theorem tradition_frame (st : LayerState) (p_func : PrimFun) (inputs : List ℚ)
    (input_config : Option BitScale) (t_scale : ℚ) :
    BaseWeightLayer.forward st p_func inputs "TRADITION" input_config t_scale =
      some ((List.zipWith (fun l v => p_func v l) st.weights
        (splitList st.input_split_num inputs)).sum, st) := by
  simp [BaseWeightLayer.forward]

------------------------------------------------------------------------
-- C7: error cases of forward
------------------------------------------------------------------------

/-- C7: `SINGLE_FIX_TEST` fails while training and fails when the
input `(bit, scale)` pair is missing; any method outside
`{TRADITION, FIX_TRAIN, SINGLE_FIX_TEST}` fails. -/
theorem forward_error_cases (st : LayerState) (p_func : PrimFun)
    (inputs : List ℚ) (input_config : Option BitScale) (t_scale : ℚ)
    (method : String) :
    (st.training = true →
      BaseWeightLayer.forward st p_func inputs "SINGLE_FIX_TEST" input_config
        t_scale = none) ∧
    (BaseWeightLayer.forward st p_func inputs "SINGLE_FIX_TEST" none t_scale
      = none) ∧
    (method ≠ "TRADITION" → method ≠ "FIX_TRAIN" → method ≠ "SINGLE_FIX_TEST" →
      BaseWeightLayer.forward st p_func inputs method input_config t_scale
        = none) := by
  refine ⟨?_, ?_, ?_⟩
  · intro h
    simp [BaseWeightLayer.forward, h]
  · by_cases h : st.training
    · simp [BaseWeightLayer.forward, h]
    · simp [BaseWeightLayer.forward, h]
  · intro h1 h2 h3
    simp [BaseWeightLayer.forward, h1, h2, h3]

/-- Witness for C7 on a concrete layer. -/
theorem forward_error_cases_witness :
    (mkLayer ⟨8, 8, 8, 2, 2, 8, 2⟩ true 1 [[1]]).training = true ∧
    BaseWeightLayer.forward (mkLayer ⟨8, 8, 8, 2, 2, 8, 2⟩ true 1 [[1]])
      (fun a b => a.sum * b.sum) [1] "SINGLE_FIX_TEST" (some ⟨4, 1⟩) 0 = none ∧
    BaseWeightLayer.forward (mkLayer ⟨8, 8, 8, 2, 2, 8, 2⟩ false 1 [[1]])
      (fun a b => a.sum * b.sum) [1] "SINGLE_FIX_TEST" none 0 = none ∧
    BaseWeightLayer.forward (mkLayer ⟨8, 8, 8, 2, 2, 8, 2⟩ false 1 [[1]])
      (fun a b => a.sum * b.sum) [1] "FULL_PRECISION" (some ⟨4, 1⟩) 0 = none :=
  ⟨rfl,
    (forward_error_cases (mkLayer ⟨8, 8, 8, 2, 2, 8, 2⟩ true 1 [[1]])
      (fun a b => a.sum * b.sum) [1] (some ⟨4, 1⟩) 0 "X").1 rfl,
    (forward_error_cases (mkLayer ⟨8, 8, 8, 2, 2, 8, 2⟩ false 1 [[1]])
      (fun a b => a.sum * b.sum) [1] (some ⟨4, 1⟩) 0 "X").2.1,
    (forward_error_cases (mkLayer ⟨8, 8, 8, 2, 2, 8, 2⟩ false 1 [[1]])
      (fun a b => a.sum * b.sum) [1] (some ⟨4, 1⟩) 0 "FULL_PRECISION").2.2
      (by decide) (by decide) (by decide)⟩

------------------------------------------------------------------------
-- C8: frame of SINGLE_FIX_TEST on bit_scale_list
------------------------------------------------------------------------

/-- C8: a `SINGLE_FIX_TEST` call overwrites the input row of
`bit_scale_list` with the externally supplied pair and leaves the weight
row and the output row (bit and scale) unchanged. -/
theorem single_fix_test_frame (st : LayerState) (p_func : PrimFun)
    (inputs : List ℚ) (cfg : BitScale) (t_scale : ℚ)
    (h : st.training = false) :
    ∃ out st2,
      BaseWeightLayer.forward st p_func inputs "SINGLE_FIX_TEST" (some cfg)
        t_scale = some (out, st2) ∧
      st2.bit_scale_input = cfg ∧
      st2.bit_scale_weight = st.bit_scale_weight ∧
      st2.bit_scale_output = st.bit_scale_output := by
  have hswf : ∃ v, set_weights_forward { st with bit_scale_input := cfg }
      p_func inputs
      (get_quantize_weight_bit_list { st with bit_scale_input := cfg })
      = some v := by
    unfold set_weights_forward
    rw [if_neg (by simp [h])]
    exact ⟨_, rfl⟩
  obtain ⟨v, hv⟩ := hswf
  rw [h] at hv
  refine ⟨v, { st with bit_scale_input := cfg }, ?_, rfl, rfl, rfl⟩
  simp [BaseWeightLayer.forward, h, hv]

/-- Witness for C8 on a concrete layer. -/
theorem single_fix_test_frame_witness :
    (mkLayer ⟨8, 8, 8, 2, 2, 8, 2⟩ false 1 [[1]]).training = false ∧
    ∃ out st2,
      BaseWeightLayer.forward (mkLayer ⟨8, 8, 8, 2, 2, 8, 2⟩ false 1 [[1]])
        (fun a b => a.sum * b.sum) [1] "SINGLE_FIX_TEST" (some ⟨4, 1⟩) 0 =
        some (out, st2) ∧
      st2.bit_scale_input = ⟨4, 1⟩ ∧
      st2.bit_scale_weight = (mkLayer ⟨8, 8, 8, 2, 2, 8, 2⟩ false 1 [[1]]).bit_scale_weight ∧
      st2.bit_scale_output = (mkLayer ⟨8, 8, 8, 2, 2, 8, 2⟩ false 1 [[1]]).bit_scale_output :=
  ⟨rfl, single_fix_test_frame (mkLayer ⟨8, 8, 8, 2, 2, 8, 2⟩ false 1 [[1]])
    (fun a b => a.sum * b.sum) [1] ⟨4, 1⟩ 0 rfl⟩

------------------------------------------------------------------------
-- C9: the weight/output bit widths are invariant
------------------------------------------------------------------------

theorem quantize_commit_snd_bit (inputs : List ℚ) (bit : ℕ) (scale : ℚ) :
    (quantize_commit inputs bit scale).2.bit = bit := rfl

theorem quantize_forward_bit (inputs : List ℚ) (mode : String)
    (phase : Option String) (bit : ℕ) (last : BitScale) (t : ℚ)
    (p : List ℚ × BitScale)
    (h : QuantizeFunction.forward inputs mode phase bit last t = some p) :
    p.2.bit = bit := by
  unfold QuantizeFunction.forward at h
  split_ifs at h <;>
    first
      | (simp only [Option.some.injEq] at h; rw [← h];
          exact quantize_commit_snd_bit _ _ _)
      | exact absurd h (by simp)

theorem forward_bits (st : LayerState) (p_func : PrimFun) (inputs : List ℚ)
    (method : String) (input_config : Option BitScale) (t_scale : ℚ)
    (r : ℚ × LayerState)
    (h : BaseWeightLayer.forward st p_func inputs method input_config t_scale
      = some r) :
    r.2.bit_scale_weight.bit = st.bit_scale_weight.bit ∧
    r.2.bit_scale_output.bit = st.bit_scale_output.bit := by
  unfold BaseWeightLayer.forward at h
  by_cases h1 : method = "TRADITION"
  · rw [if_pos h1] at h
    simp only [Option.some.injEq] at h
    rw [← h]
    exact ⟨rfl, rfl⟩
  · rw [if_neg h1] at h
    by_cases h2 : method = "FIX_TRAIN"
    · rw [if_pos h2] at h
      dsimp only at h
      cases hq : QuantizeFunction.forward st.weights.join "weight" none
          st.bit_scale_weight.bit st.bit_scale_weight t_scale with
      | none => rw [hq] at h; exact absurd h (by simp)
      | some qw =>
        rw [hq] at h
        dsimp only at h
        cases ho : QuantizeFunction.forward [p_func inputs qw.1] "activation"
            (some (if st.training then "train" else "test"))
            st.bit_scale_output.bit st.bit_scale_output t_scale with
        | none => rw [ho] at h; exact absurd h (by simp)
        | some qo =>
          rw [ho] at h
          dsimp only at h
          simp only [Option.some.injEq] at h
          rw [← h]
          exact ⟨quantize_forward_bit _ _ _ _ _ _ _ hq,
            quantize_forward_bit _ _ _ _ _ _ _ ho⟩
    · rw [if_neg h2] at h
      by_cases h3 : method = "SINGLE_FIX_TEST"
      · rw [if_pos h3] at h
        by_cases h4 : st.training
        · rw [if_pos h4] at h
          exact absurd h (by simp)
        · rw [if_neg h4] at h
          cases input_config with
          | none => exact absurd h (by simp)
          | some cfg =>
            dsimp only at h
            cases hs : set_weights_forward { st with bit_scale_input := cfg }
                p_func inputs
                (get_quantize_weight_bit_list { st with bit_scale_input := cfg }) with
            | none => rw [hs] at h; exact absurd h (by simp)
            | some out =>
              rw [hs] at h
              dsimp only at h
              simp only [Option.some.injEq] at h
              rw [← h]
              exact ⟨rfl, rfl⟩
      · rw [if_neg h3] at h
        exact absurd h (by simp)

/-- One external call to the layer: the caller may toggle
`training` (as `nn.Module.train()`/`.eval()` do), then invokes
`forward`; a failed assertion leaves the state as it was. -/
structure CallSpec where
  training : Bool
  p_func : PrimFun
  inputs : List ℚ
  method : String
  input_config : Option BitScale
  t_scale : ℚ

def stepCall (st : LayerState) (c : CallSpec) : LayerState :=
  let st1 := { st with training := c.training }
  match BaseWeightLayer.forward st1 c.p_func c.inputs c.method c.input_config
    c.t_scale with
  | some r => r.2
  | none => st1

theorem stepCall_bits (st : LayerState) (c : CallSpec) :
    (stepCall st c).bit_scale_weight.bit = st.bit_scale_weight.bit ∧
    (stepCall st c).bit_scale_output.bit = st.bit_scale_output.bit := by
  unfold stepCall
  dsimp only
  cases hf : BaseWeightLayer.forward { st with training := c.training }
      c.p_func c.inputs c.method c.input_config c.t_scale with
  | none => exact ⟨rfl, rfl⟩
  | some r =>
    exact forward_bits { st with training := c.training } c.p_func c.inputs
      c.method c.input_config c.t_scale r hf

/-- C9: over any sequence of forward calls in any mode, the bit-width
entries of the weight row and the output row of `bit_scale_list` remain
the configured `quantize` bit widths from construction. -/
theorem bit_width_invariant (ini : LayerIni) (training : Bool)
    (input_split_num : ℕ) (weights : List (List ℚ)) (calls : List CallSpec) :
    (calls.foldl stepCall (mkLayer ini training input_split_num weights)).bit_scale_weight.bit
      = ini.quantize_weight ∧
    (calls.foldl stepCall (mkLayer ini training input_split_num weights)).bit_scale_output.bit
      = ini.quantize_output := by
  have key : ∀ (cs : List CallSpec) (st : LayerState),
      (cs.foldl stepCall st).bit_scale_weight.bit = st.bit_scale_weight.bit ∧
      (cs.foldl stepCall st).bit_scale_output.bit = st.bit_scale_output.bit := by
    intro cs
    induction cs with
    | nil => exact fun st => ⟨rfl, rfl⟩
    | cons c cs ih =>
      intro st
      have h1 := stepCall_bits st c
      have h2 := ih (stepCall st c)
      simp only [List.foldl_cons]
      exact ⟨h2.1.trans h1.1, h2.2.trans h1.2⟩
  exact key calls (mkLayer ini training input_split_num weights)

------------------------------------------------------------------------
-- C2: the rescaling of every partial sum in set_weights_forward
------------------------------------------------------------------------

theorem list_sum_bind {α : Type} (l : List α) (f : α → List ℚ) :
    (l.bind f).sum = (l.map (fun x => (f x).sum)).sum := by
  induction l with
  | nil => simp
  | cons a l ih => simp [List.sum_append, ih]

theorem list_sum_map_getD {α : Type} (l : List α) (f : α → ℚ) (d : α) :
    (l.map f).sum = ∑ i in Finset.range l.length, f (l.getD i d) := by
  induction l with
  | nil => simp
  | cons a l ih =>
    rw [List.map_cons, List.sum_cons, ih, List.length_cons,
      Finset.sum_range_succ']
    simp only [List.getD_cons_succ, List.getD_cons_zero]
    exact add_comm _ _

theorem list_sum_range_map (n : ℕ) (f : ℕ → ℚ) :
    ((List.range n).map f).sum = ∑ i in Finset.range n, f i := by
  rw [list_sum_map_getD _ _ 0, List.length_range]
  refine Finset.sum_congr rfl (fun i hi => ?_)
  rw [List.getD_eq_getElem _ _ (by simpa using Finset.mem_range.mp hi),
    List.getElem_range]

theorem zip_getD {α β : Type} (l1 : List α) (l2 : List β) (d1 : α) (d2 : β)
    (i : ℕ) (h : i < (l1.zip l2).length) :
    (l1.zip l2).getD i (d1, d2) = (l1.getD i d1, l2.getD i d2) := by
  rw [List.length_zip] at h
  rw [List.getD_eq_getElem _ _ (by rw [List.length_zip]; omega),
    List.getElem_zip, List.getD_eq_getElem _ _ (by omega),
    List.getD_eq_getElem _ _ (by omega)]

/-- The doubly-nested loop over sub-operations and digit pairs of
`set_weights_forward`, re-indexed as a triple sum. -/
theorem triple_sum_reshape {α β : Type} (l1 : List α) (l2 : List β)
    (d1 : α) (d2 : β) (ic wc : ℕ) (body : α × β → ℕ → ℕ → ℚ) :
    ((l1.zip l2).bind (fun p =>
      (List.range ic).bind (fun i =>
        (List.range wc).map (fun j => body p i j)))).sum =
    ∑ l in Finset.range ((l1.zip l2).length),
      ∑ i in Finset.range ic,
        ∑ j in Finset.range wc, body (l1.getD l d1, l2.getD l d2) i j := by
  rw [list_sum_bind, list_sum_map_getD _ _ (d1, d2)]
  refine Finset.sum_congr rfl (fun l hl => ?_)
  rw [zip_getD _ _ _ _ _ (Finset.mem_range.mp hl)]
  rw [list_sum_bind, list_sum_range_map]
  refine Finset.sum_congr rfl (fun i _ => ?_)
  rw [list_sum_range_map]

/-- The value computed by `set_weights_forward`, written as the claim
states it: for every sub-operation `ℓ` and digit pair `(i, j)`, the raw
partial sum `p_func(input_digit_i, weight_digit_j)` is multiplied by
`mul_scale / output_scale * transfer_scale`, rounded and clamped to
`±thres(adc_bit)`, divided by `transfer_scale * 2^scale_point` with
`scale_point = (input_cycle-1-i)*dac_bit + (weight_cycle-1-j)*cell_bit`;
the rescaled terms are summed and the sum is quantized once more to the
output bit width and rescaled by the committed output range. -/
def swf_formula (st : LayerState) (p_func : PrimFun) (inputs : List ℚ)
    (quantize_weight_bit_list : List (List (List ℚ))) : ℚ :=
  let input_list := splitList st.input_split_num inputs
  let weight_cycle := _get_cycle st.bit_scale_weight.bit st.layer_ini.cell_bit
  let input_cycle := _get_cycle st.bit_scale_input.bit st.layer_ini.dac_bit
  let output_scale := st.bit_scale_output.scale *
    (_get_thres st.bit_scale_output.bit : ℚ)
  let mul_scale := st.bit_scale_weight.scale * st.bit_scale_input.scale *
    2 ^ ((weight_cycle - 1) * st.layer_ini.cell_bit) *
    2 ^ ((input_cycle - 1) * st.layer_ini.dac_bit)
  let transfer_scale := (2 : ℚ) ^ (st.layer_ini.point_shift + st.layer_ini.adc_bit - 1)
  let adc_thres := _get_thres st.layer_ini.adc_bit
  let total := ∑ l in Finset.range ((quantize_weight_bit_list.zip input_list).length),
    ∑ i in Finset.range input_cycle,
      ∑ j in Finset.range weight_cycle,
        ((clampZ (roundTE (p_func
            ((split_by_bit (input_list.getD l []) st.bit_scale_input.scale
              st.bit_scale_input.bit st.layer_ini.dac_bit).getD i [])
            ((quantize_weight_bit_list.getD l []).getD j []) *
          (mul_scale / output_scale * transfer_scale)))
          (-adc_thres) adc_thres : ℤ) : ℚ) /
        (transfer_scale * 2 ^ ((input_cycle - 1 - i) * st.layer_ini.dac_bit +
          (weight_cycle - 1 - j) * st.layer_ini.cell_bit))
  let output_thres := _get_thres st.bit_scale_output.bit
  ((clampZ (roundTE (total * (output_thres : ℚ))) (-output_thres)
    output_thres : ℤ) : ℚ) / ((output_thres : ℚ) / output_scale)

/-- C2: outside training, the hardware-accurate pass computes exactly the
per-digit-pair rescaled, rounded, clamped and positionally-reweighted
accumulation described by `swf_formula`. -/
theorem set_weights_forward_spec (st : LayerState) (p_func : PrimFun)
    (inputs : List ℚ) (quantize_weight_bit_list : List (List (List ℚ)))
    (h : st.training = false) :
    set_weights_forward st p_func inputs quantize_weight_bit_list =
      some (swf_formula st p_func inputs quantize_weight_bit_list) := by
  unfold set_weights_forward swf_formula
  rw [if_neg (by simp [h])]
  dsimp only
  rw [triple_sum_reshape]

/-- Witness for C2 on a concrete layer outside training. -/
theorem set_weights_forward_spec_witness :
    (mkLayer ⟨8, 8, 8, 2, 2, 8, 2⟩ false 1 [[1]]).training = false ∧
    set_weights_forward (mkLayer ⟨8, 8, 8, 2, 2, 8, 2⟩ false 1 [[1]])
        (fun a b => a.sum * b.sum) [1] [[[1]]] =
      some (swf_formula (mkLayer ⟨8, 8, 8, 2, 2, 8, 2⟩ false 1 [[1]])
        (fun a b => a.sum * b.sum) [1] [[[1]]]) :=
  ⟨rfl, set_weights_forward_spec (mkLayer ⟨8, 8, 8, 2, 2, 8, 2⟩ false 1 [[1]])
    (fun a b => a.sum * b.sum) [1] [[[1]]] rfl⟩
